import Mathlib

/-!
# Automatic-differentiation examples: the Rcpp snippets of the Stan Math post

The C++ snippets compute a value and a gradient or Jacobian of a toy model by
calling the Stan Math library.  A `double` is embedded as an element of a
field `K` (exact arithmetic), an `Eigen` vector as a `List`, an `Eigen`
matrix as its dimensions with an entry function, and a read or write outside
a vector or matrix as `none`.  The `int` loop counters are natural numbers,
which they are for vectors and tables of fewer than `2^31` entries, and a
`double` that is not a number is left out.  The library itself (the reverse sweep, `exp`, `log`, the ODE integrator) is not
part of the snippets: its reverse mode is modelled on expression trees and
its transcendental functions and integrator are parameters.
-/

set_option linter.dupNamespace false
set_option linter.unusedSectionVars false

namespace StanAD

variable {K : Type}

/-! ## Library functions on `double` that the snippets call -/

/-- The transcendental functions of the library on `double`: they are not part
of the snippets and are taken as parameters. -/
structure StanMath (K : Type) where
  exp : K → K
  log : K → K

/-- The library function `log1m(x)`, documented as `log(1 - x)`. -/
def log1m [Field K] (L : StanMath K) (x : K) : K :=
  L.log (1 - x)

/-- The library function `multiply_log(a, b)`, documented as `a * log(b)` and
as zero when both arguments are zero. -/
def multiply_log [Field K] [DecidableEq K] (L : StanMath K) (a b : K) : K :=
  if a = 0 ∧ b = 0 then 0 else a * L.log b

/-! ## Reverse-mode variables of the library -/

/-- A `stan::math::var`: the value computed in the forward pass together with
the operands it was computed from and the partial derivative with respect to
each operand.  `input i v` is the `i`-th independent variable. -/
inductive var (K : Type) where
  | input (i : Nat) (v : K) : var K
  | const (v : K) : var K
  | un (v : K) (a : var K) (da : K) : var K
  | bin (v : K) (a b : var K) (da db : K) : var K

namespace var

/-- The member `val()`. -/
def val : var K → K
  | input _ v => v
  | const v => v
  | un v _ _ => v
  | bin v _ _ _ _ => v

/-- The reverse sweep below a node whose adjoint is `g`: every operand
receives `g` times its partial, and an independent variable adds what it
receives to its adjoint. -/
def chain [Field K] : var K → K → (Nat → K) → (Nat → K)
  | input i _, g, adj => fun k => if k = i then adj k + g else adj k
  | const _, _, adj => adj
  | un _ a da, g, adj => chain a (da * g) adj
  | bin _ a b da db, g, adj => chain b (db * g) (chain a (da * g) adj)

/-- The member `grad()`: the adjoint of the node is set to one and the sweep is
run; adjoints accumulate on top of those already stored. -/
def grad [Field K] (y : var K) (adj : Nat → K) : Nat → K :=
  chain y 1 adj

/-- The operator `var + var`. -/
def add [Field K] (a b : var K) : var K :=
  bin (a.val + b.val) a b 1 1

/-- The operator `var + double`. -/
def add_d [Field K] (a : var K) (c : K) : var K :=
  un (a.val + c) a 1

/-- The operator `var - var`. -/
def sub [Field K] (a b : var K) : var K :=
  bin (a.val - b.val) a b 1 (-1)

/-- The operator `var - double`. -/
def sub_d [Field K] (a : var K) (c : K) : var K :=
  un (a.val - c) a 1

/-- The operator `var * var`. -/
def mul [Field K] (a b : var K) : var K :=
  bin (a.val * b.val) a b b.val a.val

/-- The operator `var * double`. -/
def mul_d [Field K] (a : var K) (c : K) : var K :=
  un (a.val * c) a c

/-- The unary minus of a `var`. -/
def neg [Field K] (a : var K) : var K :=
  un (-a.val) a (-1)

/-- The library function `square` on a `var`. -/
def square [Field K] (a : var K) : var K :=
  un (a.val * a.val) a (2 * a.val)

/-- The library function `exp` on a `var`. -/
def exp [Field K] (L : StanMath K) (a : var K) : var K :=
  un (L.exp a.val) a (L.exp a.val)

end var

/-- The library call `set_zero_all_adjoints()`. -/
def set_zero_all_adjoints [Field K] (_ : Nat → K) : Nat → K :=
  fun _ => 0

/-- The independent variables `x_var(x)` a functional is evaluated at. -/
def independent (x : List K) : List (var K) :=
  List.zipWith var.input (List.range x.length) x

/-- The member `adj()` of a vector of `n` independent variables. -/
def adjoints (n : Nat) (adj : Nat → K) : List K :=
  (List.range n).map adj

/-! ## Matrices and the values handed back to R -/

/-- An `Eigen::MatrixXd`: its dimensions and its entries. -/
structure MatrixXd (K : Type) where
  rows : Nat
  cols : Nat
  coeff : Nat → Nat → K

namespace MatrixXd

/-- The member `resize(r, c)`; the entries it leaves unset are taken as zero. -/
def resize [Field K] (r c : Nat) : MatrixXd K :=
  ⟨r, c, fun _ _ => 0⟩

/-- The write `M(i, j) = v`; there is no result outside the matrix. -/
def set (M : MatrixXd K) (i j : Nat) (v : K) : Option (MatrixXd K) :=
  if i < M.rows ∧ j < M.cols then
    some ⟨M.rows, M.cols, fun a b => if a = i ∧ b = j then v else M.coeff a b⟩
  else none

/-- The write `M.col(j) = v` of a vector with as many entries as `M` has
rows. -/
def setCol [Field K] (M : MatrixXd K) (j : Nat) (v : List K) : Option (MatrixXd K) :=
  if j < M.cols ∧ v.length = M.rows then
    some ⟨M.rows, M.cols, fun a b => if b = j then v.getD a 0 else M.coeff a b⟩
  else none

/-- The member `transposeInPlace()`. -/
def transposeInPlace (M : MatrixXd K) : MatrixXd K :=
  ⟨M.cols, M.rows, fun a b => M.coeff b a⟩

end MatrixXd

/-- An `Rcpp::NumericMatrix` with its column names. -/
structure NumericMatrix (K : Type) where
  data : MatrixXd K
  colnames : List String

/-- An `Rcpp::NumericVector` with its attribute `"gradient"`. -/
structure NumericVector (K : Type) where
  data : List K
  gradient : NumericMatrix K

/-- The assignment `colnames(M) = names`, which Rcpp refuses unless there is
one name for each column. -/
def colnames (M : MatrixXd K) (names : List String) : Option (NumericMatrix K) :=
  if names.length = M.cols then some ⟨M, names⟩ else none

/-! ## The library drivers `gradient` and `jacobian` -/

/-- The library call `stan::math::gradient(f, x, fx, grad_fx)`: `f` is
evaluated at the independent variables, `fx` is its value and `grad_fx` the
adjoints of the independent variables after one sweep from zero. -/
def gradient [Field K] (f : List (var K) → Option (var K)) (x : List K) :
    Option (K × List K) := do
  let fx_var ← f (independent x)
  pure (fx_var.val, adjoints x.length (fx_var.grad (fun _ => 0)))

/-- The library call `stan::math::jacobian(f, x, fx, J)`: `fx` holds the
values of `f` at the independent variables and row `i` of `J` the adjoints
of the independent variables after a sweep from zero started at output `i`. -/
def jacobian [Field K] (f : List (var K) → Option (List (var K))) (x : List K) :
    Option (List K × MatrixXd K) := do
  let fx_var ← f (independent x)
  pure (fx_var.map var.val,
    ⟨fx_var.length, x.length, fun i j =>
      match fx_var[i]? with
      | some y => y.grad (fun _ => 0) j
      | none => 0⟩)

/-! ## The polynomial: `grad_poly` -/

/-- The loop body `y += theta[k] * std::pow(x, k)` of both polynomials. -/
def polynomial_body [Field K] (x : K) (theta : List (var K)) (y : var K) (k : Nat) :
    Option (var K) := do
  let tk ← theta[k]?
  pure (y.add (tk.mul_d (x ^ k)))

namespace chunk11

/-- The lambda of the first `grad_poly`, whose loop is
`for(int k = 1; k < 10; k++)`. -/
def polynomial [Field K] (x : K) (theta : List (var K)) : Option (var K) := do
  let y ← theta[0]?
  (List.range' 1 (10 - 1)).foldlM (polynomial_body x theta) y

/-- The first `grad_poly` (fixed degree): the gradient `grad_fx` is returned. -/
def grad_poly [Field K] (x : K) (theta : List K) : Option (List K) := do
  let (_, grad_fx) ← gradient (polynomial x) theta
  pure grad_fx

end chunk11

namespace chunk12

/-- The lambda of the second `grad_poly`, whose loop is
`for(int k = 1; k < theta.size(); k++)`. -/
def polynomial [Field K] (x : K) (theta : List (var K)) : Option (var K) := do
  let y ← theta[0]?
  (List.range' 1 (theta.length - 1)).foldlM (polynomial_body x theta) y

/-- The second `grad_poly` (bounded by the size of `theta`): the gradient
`grad_fx` is returned. -/
def grad_poly [Field K] (x : K) (theta : List K) : Option (List K) := do
  let (_, grad_fx) ← gradient (polynomial x) theta
  pure grad_fx

end chunk12

/-! ## The exponential model: `fjac_exp` -/

/-- The function `fjac_exp`: response and Jacobian of
`theta(0) * exp(-theta(1) * x) + theta(2)`. -/
def fjac_exp [Field K] (L : StanMath K) (x theta : List K) : Option (NumericVector K) := do
  let (fx, jac_fx) ← jacobian
    (fun theta => do
      let t0 ← theta[0]?
      let t1 ← theta[1]?
      let t2 ← theta[2]?
      let e := x.map (fun xi => var.exp L (t1.neg.mul_d xi))
      pure (e.map (fun ei => (t0.mul ei).add t2))) theta
  let fx1 := fx
  let jac_fx1 ← colnames jac_fx ["A", "lam", "b"]
  pure ⟨fx1, jac_fx1⟩

/-! ## The Watson function: `watson_func` and `fjac_watson` -/

/-- The library call `multiply(M, v)` of a `double` matrix and a vector of
`var`, which the library refuses unless `M` has one column for each entry of
`v`: entry `i` is the sum over `j` of `M(i, j) * v(j)`. -/
def multiply [Field K] (M : MatrixXd K) (v : List (var K)) : Option (List (var K)) :=
  if M.cols = v.length then
    some ((List.range M.rows).map (fun i =>
      (List.zipWith (fun j vj => vj.mul_d (M.coeff i j)) (List.range M.cols) v).foldl
        var.add (var.const 0)))
  else none

/-- The library call `subtract(a, b)` on two vectors, which the library
refuses unless they have the same size. -/
def subtract [Field K] (a b : List (var K)) : Option (List (var K)) :=
  if a.length = b.length then some (List.zipWith var.sub a b) else none

/-- The comma initializer `fx << ...` into a vector of `n` entries: it is
given exactly `n` coefficients, or there is no result. -/
def comma_init {α : Type} (n : Nat) (coeffs : List α) : Option (List α) :=
  if coeffs.length = n then some coeffs else none

/-- The struct `watson_func`: the member `n_` and the tables `tj1`, `tj2`. -/
structure watson_func (K : Type) where
  n_ : Nat
  tj1 : MatrixXd K
  tj2 : MatrixXd K

namespace watson_func

/-- The body of the loop `for (int j = 1; j < p; ++j)` of the constructor, on
the running power `tj` and the two tables. -/
def inner [Field K] (i : Nat) (ti : K) (s : K × MatrixXd K × MatrixXd K) (j : Nat) :
    Option (K × MatrixXd K × MatrixXd K) := do
  let (tj, tj1, tj2) := s
  let tj2 ← tj2.set i j (j * tj)
  let tj := tj * ti
  let tj1 ← tj1.set i j tj
  pure (tj, tj1, tj2)

/-- The body of the loop `for (int i = 0; i < n - 2; ++i)` of the constructor. -/
def outer [Field K] (p : Nat) (s : MatrixXd K × MatrixXd K) (i : Nat) :
    Option (MatrixXd K × MatrixXd K) := do
  let (tj1, tj2) := s
  let ti : K := ((i + 1 : Nat) : K) / 29
  let tj : K := 1
  let tj1 ← tj1.set i 0 tj
  let tj2 ← tj2.set i 0 0
  let (_, tj1, tj2) ← (List.range' 1 (p - 1)).foldlM (inner i ti) (tj, tj1, tj2)
  pure (tj1, tj2)

/-- The constructor `watson_func(size_t n = 31, size_t p = 6)`.  The row count
`n - 2` is the natural-number difference, which is the `size_t` difference
whenever `2 <= n`. -/
def watson_func [Field K] (n p : Nat) : Option (watson_func K) := do
  let tj1 : MatrixXd K := MatrixXd.resize (n - 2) p
  let tj2 : MatrixXd K := MatrixXd.resize (n - 2) p
  let (tj1, tj2) ← (List.range (n - 2)).foldlM (outer p) (tj1, tj2)
  pure ⟨n, tj1, tj2⟩

/-- The abscissa `(i + 1) / 29` of row `i`, for the closed forms below. -/
def ti [Field K] (i : Nat) : K :=
  ((i + 1 : Nat) : K) / 29

/-- The table `tj1` of `R` rows and `p` columns once its first `r` rows are
filled: the closed form that the loops are compared with. -/
def tj1_filled [Field K] (R p r : Nat) : MatrixXd K :=
  ⟨R, p, fun a b => if a < r ∧ b < p then ti a ^ b else 0⟩

/-- The table `tj2` of `R` rows and `p` columns once its first `r` rows are
filled: the closed form that the loops are compared with. -/
def tj2_filled [Field K] (R p r : Nat) : MatrixXd K :=
  ⟨R, p, fun a b => if a < r ∧ b < p then (if b = 0 then 0 else (b : K) * ti a ^ (b - 1)) else 0⟩

/-- The call operator `operator()(theta)`, at the scalar type `var` that
`stan::math::jacobian` evaluates it at. -/
def call [Field K] (w : StanAD.watson_func K) (theta : List (var K)) :
    Option (List (var K)) := do
  let a ← multiply w.tj2 theta
  let b ← multiply w.tj1 theta
  let r ← subtract a (b.map (fun bi => bi.square.add_d 1))
  let t0 ← theta[0]?
  let t1 ← theta[1]?
  comma_init w.n_ (r ++ [t0, (t1.sub (t0.mul t0)).sub_d 1])

end watson_func

/-- The function `fjac_watson`: response and Jacobian of the
default-constructed `watson_func`. -/
def fjac_watson [Field K] (theta : List K) (nms : List String) :
    Option (NumericVector K) := do
  let wf ← watson_func.watson_func 31 6
  let (fx, jac_fx) ← jacobian wf.call theta
  let fx1 := fx
  let jac_fx1 ← colnames jac_fx nms
  pure ⟨fx1, jac_fx1⟩

/-- The Watson residuals as the specification writes them, for a parameter
vector of 6 entries: with `t_i = (i + 1) / 29`, entry `i < 29` is
`sum_{j=1..5} j * theta_j * t_i^(j-1) - (sum_{j=0..5} theta_j * t_i^j)^2 - 1`,
entry 29 is `theta_0` and entry 30 is `theta_1 - theta_0^2 - 1`. -/
def watson_residuals_spec [Field K] (theta : List K) : List K :=
  (List.range 29).map (fun i =>
      ∑ j in Finset.Icc (1 : Nat) 5,
          (j : K) * theta.getD j 0 * (((i + 1 : Nat) : K) / 29) ^ (j - 1)
        - (∑ j in Finset.range 6, theta.getD j 0 * (((i + 1 : Nat) : K) / 29) ^ j) ^ 2 - 1)
    ++ [theta.getD 0 0, theta.getD 1 0 - theta.getD 0 0 ^ 2 - 1]

/-! ## The kinetic model: `kinetic_func` and `fjac_kinetic` -/

namespace kinetic_func

/-- The local `y1 = fmin(fmax(y(0), 1e-10), 1.0 - 1e-10)` of `kinetic_func`. -/
def y1 [LinearOrderedField K] (y0 : K) : K :=
  min (max y0 1e-10) (1.0 - 1e-10)

end kinetic_func

/-- The call operator of `kinetic_func`, the right-hand side of the ODE, on
`double` arguments; the stream `msgs` is not used and is left out. -/
def kinetic_func [LinearOrderedField K] (L : StanMath K) (_t : K) (y : List K)
    (theta : List K) : Option (List K) := do
  let y0 ← y[0]?
  let y1 := kinetic_func.y1 y0
  let th0 ← theta[0]?
  let th1 ← theta[1]?
  let th2 ← theta[2]?
  let th3 ← theta[3]?
  pure [L.exp (th0 + th1 * log1m L y1 + multiply_log L th2 y1
    + multiply_log L th3 (-log1m L y1))]

/-- The type of the library integrator `ode_rk45(f, y0, t0, ts, msgs, theta)`
with `var` parameters: from the right-hand side, the initial state, the
initial time, the output times and the parameters it gives one state of `var`
for each output time, or no result; the stream `msgs` is left out. -/
abbrev OdeSolver (K : Type) : Type :=
  (K → List K → List K → Option (List K)) → List K → K → List K → List (var K) →
    Option (List (List (var K)))

/-- The `n`-th output `ys[n](0)` of the integrator, when it is there. -/
def ode_output (ys : List (List (var K))) (n : Nat) : Option (var K) := do
  let ysn ← ys[n]?
  ysn[0]?

/-- The body of the loop `for (int n = 0; n < ts.length(); ++n)` of
`fjac_kinetic`, on the adjoints stored in the library and on `fx`, `jac_fx`. -/
def fjac_kinetic.step [Field K] (ys : List (List (var K)))
    (s : (Nat → K) × List K × MatrixXd K) (n : Nat) :
    Option ((Nat → K) × List K × MatrixXd K) := do
  let (adj, fx, jac_fx) := s
  let adj := set_zero_all_adjoints adj
  let ysn ← ys[n]?
  let y ← ysn[0]?
  let adj := y.grad adj
  let fx ← if n < fx.length then some (fx.set n y.val) else none
  let jac_fx ← jac_fx.setCol n (adjoints 4 adj)
  pure (adj, fx, jac_fx)

/-- The function `fjac_kinetic`; the integrator is a parameter. -/
def fjac_kinetic [LinearOrderedField K] (L : StanMath K) (ode_rk45 : OdeSolver K)
    (logk n m p : K) (ts : List K) : Option (NumericVector K) := do
  let theta : List (var K) := [var.input 0 logk, var.input 1 n, var.input 2 m, var.input 3 p]
  let y0 : List K := [0.001]
  let kf := kinetic_func L
  let ys ← ode_rk45 kf y0 0 ts theta
  let fx : List K := List.replicate ts.length 0
  let jac_fx : MatrixXd K := MatrixXd.resize 4 ts.length
  let (_, fx, jac_fx) ← (List.range ts.length).foldlM (fjac_kinetic.step ys)
    (fun _ => 0, fx, jac_fx)
  let fx1 := fx
  let jac_fx := jac_fx.transposeInPlace
  let jac_fx1 ← colnames jac_fx ["logk", "n", "m", "p"]
  pure ⟨fx1, jac_fx1⟩

/-! ## Lemmas on the reverse sweep and on vectors -/

section lemmas

variable [Field K]

@[simp] theorem val_add (a b : var K) : (a.add b).val = a.val + b.val := rfl

@[simp] theorem val_add_d (a : var K) (c : K) : (a.add_d c).val = a.val + c := rfl

@[simp] theorem val_sub (a b : var K) : (a.sub b).val = a.val - b.val := rfl

@[simp] theorem val_sub_d (a : var K) (c : K) : (a.sub_d c).val = a.val - c := rfl

@[simp] theorem val_mul (a b : var K) : (a.mul b).val = a.val * b.val := rfl

@[simp] theorem val_mul_d (a : var K) (c : K) : (a.mul_d c).val = a.val * c := rfl

@[simp] theorem val_neg (a : var K) : a.neg.val = -a.val := rfl

@[simp] theorem val_square (a : var K) : a.square.val = a.val * a.val := rfl

@[simp] theorem val_exp (L : StanMath K) (a : var K) : (var.exp L a).val = L.exp a.val := rfl

@[simp] theorem val_input (i : Nat) (v : K) : (var.input i v).val = v := rfl

@[simp] theorem val_const (v : K) : (var.const v).val = v := rfl

theorem chain_input (i : Nat) (v g : K) (adj : Nat → K) (k : Nat) :
    (var.input i v).chain g adj k = if k = i then adj k + g else adj k := rfl

theorem chain_add (a b : var K) (g : K) (adj : Nat → K) :
    (a.add b).chain g adj = b.chain (1 * g) (a.chain (1 * g) adj) := rfl

theorem chain_mul_d (a : var K) (c g : K) (adj : Nat → K) :
    (a.mul_d c).chain g adj = a.chain (c * g) adj := rfl

theorem independent_getElem? (x : List K) (k : Nat) :
    (independent x)[k]? = x[k]?.map (var.input k) := by
  unfold independent
  rw [List.getElem?_zipWith]
  by_cases hk : k < x.length
  · simp [List.getElem?_range hk, List.getElem?_eq_getElem hk]
  · simp [List.getElem?_eq_none (Nat.le_of_not_lt hk)]

theorem independent_length (x : List K) : (independent x).length = x.length := by
  simp [independent]

theorem getD_of_lt (x : List K) (k : Nat) (hk : k < x.length) : x.getD k 0 = x[k] := by
  simp [List.getD, List.getElem?_eq_getElem hk]

/-- The loop of the polynomial after `m` rounds, on the independent
variables of `theta`: the value and the sweep of the result. -/
theorem polynomial_loop (x : K) (theta : List K) (y0 : var K) (m : Nat)
    (hm : m < theta.length) :
    ∃ y, (List.range' 1 m).foldlM (polynomial_body x (independent theta)) y0 = some y
      ∧ y.val = y0.val + ∑ k in Finset.range m, theta.getD (k + 1) 0 * x ^ (k + 1)
      ∧ ∀ g adj i, y.chain g adj i
          = y0.chain g adj i + (if 1 ≤ i ∧ i ≤ m then x ^ i * g else 0) := by
  induction m with
  | zero =>
    refine ⟨y0, by simp, by simp, ?_⟩
    intro g adj i
    have : ¬ (1 ≤ i ∧ i ≤ 0) := by omega
    rw [if_neg this, add_zero]
  | succ m ih =>
    obtain ⟨y, hy, hval, hch⟩ := ih (by omega)
    have hk : 1 + m < theta.length := by omega
    refine ⟨y.add ((var.input (1 + m) theta[1 + m]).mul_d (x ^ (1 + m))), ?_, ?_, ?_⟩
    · rw [List.range'_1_concat, List.foldlM_append, hy]
      simp [polynomial_body, independent_getElem?, List.getElem?_eq_getElem hk]
    · simp only [val_add, val_mul_d, val_input, hval, Finset.sum_range_succ]
      have : theta.getD (m + 1) 0 = theta[1 + m] := by
        rw [getD_of_lt theta (m + 1) (by omega)]
        simp [Nat.add_comm]
      rw [this, Nat.add_comm m 1]
      ring
    · intro g adj i
      rw [chain_add, chain_mul_d, chain_input, hch, one_mul]
      by_cases h1 : i = 1 + m
      · subst h1
        have h2 : ¬ (1 ≤ 1 + m ∧ 1 + m ≤ m) := by omega
        have h3 : 1 ≤ 1 + m ∧ 1 + m ≤ m + 1 := by omega
        rw [if_pos rfl, if_neg h2, if_pos h3]
        ring
      · by_cases h2 : 1 ≤ i ∧ i ≤ m
        · have h3 : 1 ≤ i ∧ i ≤ m + 1 := by omega
          rw [if_neg h1, if_pos h2, if_pos h3]
        · have h3 : ¬ (1 ≤ i ∧ i ≤ m + 1) := by omega
          rw [if_neg h1, if_neg h2, if_neg h3]

/-- The value and the gradient that `stan::math::gradient` gets from a
polynomial loop of `m` rounds over a vector with more than `m` entries. -/
theorem gradient_polynomial_loop (x : K) (theta : List K) (m : Nat) (hm : m < theta.length) :
    ∃ y, (do
        let y ← (independent theta)[0]?
        (List.range' 1 m).foldlM (polynomial_body x (independent theta)) y) = some y
      ∧ y.val = ∑ k in Finset.range (m + 1), theta.getD k 0 * x ^ k
      ∧ adjoints theta.length (y.grad (fun _ => 0))
          = (List.range theta.length).map (fun k => if k ≤ m then x ^ k else 0) := by
  have h0 : 0 < theta.length := by omega
  obtain ⟨y, hy, hval, hch⟩ := polynomial_loop x theta (var.input 0 theta[0]) m hm
  refine ⟨y, ?_, ?_, ?_⟩
  · rw [independent_getElem?, List.getElem?_eq_getElem h0]
    simpa using hy
  · rw [hval, Finset.sum_range_succ', getD_of_lt theta 0 h0]
    simp [add_comm]
  · unfold adjoints var.grad
    apply List.map_congr_left
    intro i _
    rw [hch, chain_input]
    by_cases hi : i = 0
    · subst hi
      simp
    · have h1 : (1 ≤ i ∧ i ≤ m) ↔ i ≤ m := by omega
      simp [hi, h1]

/-- The fixed-degree loop gives a result exactly when every index up to `m`
is in the vector. -/
theorem polynomial_loop_isSome (x : K) (theta : List (var K)) (m : Nat) (y0 : var K) :
    ((List.range' 1 m).foldlM (polynomial_body x theta) y0).isSome ↔ (m = 0 ∨ m < theta.length) := by
  induction m with
  | zero => simp
  | succ m ih =>
    rw [List.range'_1_concat, List.foldlM_append]
    cases hr : (List.range' 1 m).foldlM (polynomial_body x theta) y0 with
    | none =>
      rw [hr] at ih
      have hn : ¬ (m = 0 ∨ m < theta.length) := fun hc => by simpa using ih.mpr hc
      have : ¬ (m + 1 = 0 ∨ m + 1 < theta.length) := by omega
      simpa using this
    | some y =>
      by_cases hk : 1 + m < theta.length
      · have : m + 1 < theta.length := by omega
        simp [polynomial_body, List.getElem?_eq_getElem hk, this]
      · have : ¬ (m + 1 < theta.length) := by omega
        simp [polynomial_body, List.getElem?_eq_none (Nat.le_of_not_lt hk), this]

theorem polynomial_fixed_isSome (x : K) (theta : List (var K)) :
    (chunk11.polynomial x theta).isSome ↔ 10 ≤ theta.length := by
  unfold chunk11.polynomial
  cases h0 : theta[0]? with
  | none =>
    have : theta.length ≤ 0 := by
      by_contra hc
      rw [List.getElem?_eq_getElem (by omega)] at h0
      exact Option.noConfusion h0
    have h2 : ¬ (10 ≤ theta.length) := by omega
    simpa using h2
  | some y =>
    have := polynomial_loop_isSome x theta (10 - 1) y
    simp only [Option.bind_eq_bind, Option.some_bind]
    rw [this]
    omega

end lemmas

/-! ## Lemmas on the constructor of `watson_func` -/

section watson

variable [Field K]

theorem MatrixXd.set_eq (M : MatrixXd K) (i j : Nat) (v : K) (hi : i < M.rows)
    (hj : j < M.cols) :
    M.set i j v
      = some ⟨M.rows, M.cols, fun a b => if a = i ∧ b = j then v else M.coeff a b⟩ := by
  unfold MatrixXd.set
  rw [if_pos ⟨hi, hj⟩]

/-- The inner loop after `m` rounds on row `i`: the running power and the
entries written in columns `1` to `m`. -/
theorem inner_loop (i : Nat) (t tj0 : K) (M1 M2 : MatrixXd K) (m : Nat)
    (h1 : i < M1.rows) (h2 : i < M2.rows) (hm1 : m < M1.cols) (hm2 : m < M2.cols) :
    (List.range' 1 m).foldlM (watson_func.inner i t) (tj0, M1, M2)
      = some (tj0 * t ^ m,
          ⟨M1.rows, M1.cols, fun a b =>
            if a = i ∧ 1 ≤ b ∧ b ≤ m then tj0 * t ^ b else M1.coeff a b⟩,
          ⟨M2.rows, M2.cols, fun a b =>
            if a = i ∧ 1 ≤ b ∧ b ≤ m then (b : K) * (tj0 * t ^ (b - 1)) else M2.coeff a b⟩) := by
  induction m with
  | zero =>
    have e : ∀ a b : Nat, ¬ (a = i ∧ 1 ≤ b ∧ b ≤ 0) := by omega
    simp only [List.range'_zero, List.foldlM_nil, Option.pure_def, Option.some.injEq,
      Prod.mk.injEq, pow_zero, mul_one, true_and, if_neg (e _ _)]
  | succ m ih =>
    rw [List.range'_1_concat, List.foldlM_append, ih (by omega) (by omega)]
    simp only [Option.bind_eq_bind, Option.some_bind, List.foldlM_cons, List.foldlM_nil,
      watson_func.inner]
    rw [MatrixXd.set_eq]
    rotate_left
    · exact h2
    · show 1 + m < M2.cols
      omega
    simp only [Option.some_bind]
    rw [MatrixXd.set_eq]
    rotate_left
    · exact h1
    · show 1 + m < M1.cols
      omega
    simp only [Option.some_bind, Option.pure_def, Option.bind_some, Option.some.injEq,
      Prod.mk.injEq, MatrixXd.mk.injEq, true_and]
    refine ⟨by ring, ?_, ?_⟩
    · funext a b
      by_cases hb : a = i ∧ b = 1 + m
      · obtain ⟨ha, hb⟩ := hb
        subst ha hb
        have : a = a ∧ 1 ≤ 1 + m ∧ 1 + m ≤ m + 1 := by omega
        rw [if_pos ⟨rfl, rfl⟩, if_pos this]
        ring
      · by_cases hc : a = i ∧ 1 ≤ b ∧ b ≤ m
        · have : a = i ∧ 1 ≤ b ∧ b ≤ m + 1 := by omega
          rw [if_neg hb, if_pos hc, if_pos this]
        · have : ¬ (a = i ∧ 1 ≤ b ∧ b ≤ m + 1) := by omega
          rw [if_neg hb, if_neg hc, if_neg this]
    · funext a b
      by_cases hb : a = i ∧ b = 1 + m
      · obtain ⟨ha, hb⟩ := hb
        subst ha hb
        have : a = a ∧ 1 ≤ 1 + m ∧ 1 + m ≤ m + 1 := by omega
        rw [if_pos ⟨rfl, rfl⟩, if_pos this]
        simp
      · by_cases hc : a = i ∧ 1 ≤ b ∧ b ≤ m
        · have : a = i ∧ 1 ≤ b ∧ b ≤ m + 1 := by omega
          rw [if_neg hb, if_pos hc, if_pos this]
        · have : ¬ (a = i ∧ 1 ≤ b ∧ b ≤ m + 1) := by omega
          rw [if_neg hb, if_neg hc, if_neg this]

/-- The outer loop after `r` rounds: the first `r` rows of both tables are
filled. -/
theorem outer_loop (R p r : Nat) (hp : 1 ≤ p) (hr : r ≤ R) :
    (List.range r).foldlM (watson_func.outer p)
        ((MatrixXd.resize R p : MatrixXd K), (MatrixXd.resize R p : MatrixXd K))
      = some (watson_func.tj1_filled R p r, watson_func.tj2_filled R p r) := by
  induction r with
  | zero =>
    have e : ∀ a b : Nat, ¬ (a < 0 ∧ b < p) := by omega
    simp only [List.range_zero, List.foldlM_nil, Option.pure_def, MatrixXd.resize,
      watson_func.tj1_filled, watson_func.tj2_filled, if_neg (e _ _)]
  | succ r ih =>
    rw [List.range_succ, List.foldlM_append, ih (by omega)]
    simp only [Option.bind_eq_bind, Option.some_bind, List.foldlM_cons, List.foldlM_nil,
      watson_func.outer]
    rw [MatrixXd.set_eq]
    rotate_left
    · show r < R
      omega
    · show 0 < p
      omega
    simp only [Option.some_bind]
    rw [MatrixXd.set_eq]
    rotate_left
    · show r < R
      omega
    · show 0 < p
      omega
    simp only [Option.some_bind]
    rw [inner_loop]
    rotate_left
    · show r < R
      omega
    · show r < R
      omega
    · show p - 1 < p
      omega
    · show p - 1 < p
      omega
    simp only [Option.some_bind, Option.pure_def, Option.bind_some, Option.some.injEq,
      Prod.mk.injEq, watson_func.tj1_filled, watson_func.tj2_filled, MatrixXd.mk.injEq,
      true_and]
    constructor
    · funext a b
      by_cases ha : a = r
      · subst ha
        by_cases hb : b < p
        · by_cases hb0 : b = 0
          · subst hb0
            simp [hb]
          · have h1 : a = a ∧ 1 ≤ b ∧ b ≤ p - 1 := by omega
            have h2 : a < a + 1 ∧ b < p := by omega
            rw [if_pos h1, if_pos h2]
            simp [watson_func.ti]
        · have h1 : ¬ (a = a ∧ 1 ≤ b ∧ b ≤ p - 1) := by omega
          have h2 : ¬ (a < a + 1 ∧ b < p) := by omega
          have h3 : ¬ (a = a ∧ b = 0) := by omega
          have h4 : ¬ (a < a ∧ b < p) := by omega
          rw [if_neg h1, if_neg h2, if_neg h3, if_neg h4]
      · have h1 : ¬ (a = r ∧ 1 ≤ b ∧ b ≤ p - 1) := by omega
        have h3 : ¬ (a = r ∧ b = 0) := by omega
        have h5 : (a < r + 1 ∧ b < p) ↔ (a < r ∧ b < p) := by omega
        rw [if_neg h1, if_neg h3]
        simp only [h5]
    · funext a b
      by_cases ha : a = r
      · subst ha
        by_cases hb : b < p
        · by_cases hb0 : b = 0
          · subst hb0
            simp [hp]
          · have h1 : a = a ∧ 1 ≤ b ∧ b ≤ p - 1 := by omega
            have h2 : a < a + 1 ∧ b < p := by omega
            rw [if_pos h1, if_pos h2, if_neg hb0]
            simp [watson_func.ti]
        · have h1 : ¬ (a = a ∧ 1 ≤ b ∧ b ≤ p - 1) := by omega
          have h2 : ¬ (a < a + 1 ∧ b < p) := by omega
          have h3 : ¬ (a = a ∧ b = 0) := by omega
          have h4 : ¬ (a < a ∧ b < p) := by omega
          rw [if_neg h1, if_neg h2, if_neg h3, if_neg h4]
      · have h1 : ¬ (a = r ∧ 1 ≤ b ∧ b ≤ p - 1) := by omega
        have h3 : ¬ (a = r ∧ b = 0) := by omega
        have h5 : (a < r + 1 ∧ b < p) ↔ (a < r ∧ b < p) := by omega
        rw [if_neg h1, if_neg h3]
        simp only [h5]

/-- The constructor gives the two tables in closed form. -/
theorem watson_func_eq (n p : Nat) (hp : 1 ≤ p) :
    (watson_func.watson_func n p : Option (watson_func K))
      = some ⟨n, watson_func.tj1_filled (n - 2) p (n - 2),
          watson_func.tj2_filled (n - 2) p (n - 2)⟩ := by
  unfold watson_func.watson_func
  simp only [Option.bind_eq_bind]
  rw [outer_loop (n - 2) p (n - 2) hp (Nat.le_refl _)]
  rfl

theorem zipWith_map_same {α β γ δ : Type} (f : β → γ → δ) (g : α → β) (h : α → γ)
    (l : List α) : List.zipWith f (l.map g) (l.map h) = l.map (fun a => f (g a) (h a)) := by
  induction l with
  | nil => rfl
  | cons a l ih => simp [ih]

/-- The values of the call operator of the default-constructed `watson_func`
on six independent variables. -/
theorem watson_call_values (a0 a1 a2 a3 a4 a5 : K) :
    ((⟨31, watson_func.tj1_filled 29 6 29, watson_func.tj2_filled 29 6 29⟩ :
          watson_func K).call (independent [a0, a1, a2, a3, a4, a5])).map (List.map var.val)
      = some (watson_residuals_spec [a0, a1, a2, a3, a4, a5]) := by
  have hi : independent [a0, a1, a2, a3, a4, a5]
      = [var.input 0 a0, var.input 1 a1, var.input 2 a2, var.input 3 a3, var.input 4 a4,
          var.input 5 a5] := rfl
  have hr : List.range 6 = [0, 1, 2, 3, 4, 5] := rfl
  have hI : (Finset.Icc 1 5 : Finset ℕ) = {1, 2, 3, 4, 5} := rfl
  rw [hi]
  simp only [watson_func.call, multiply, watson_func.tj1_filled, watson_func.tj2_filled,
    List.length_cons, List.length_nil, if_true, Option.bind_eq_bind, Option.some_bind, hr,
    List.zipWith_cons_cons, List.zipWith_nil_right, List.foldl_cons, List.foldl_nil, subtract,
    List.length_map, List.length_range, List.map_map, zipWith_map_same, comma_init,
    List.getElem?_cons_zero, List.getElem?_cons_succ, List.length_append, Nat.reduceAdd,
    Option.map_some', List.map_append, List.map_cons, List.map_nil, watson_residuals_spec,
    Option.some.injEq]
  congr 1
  · apply List.map_congr_left
    intro i hi
    have h29 : i < 29 := List.mem_range.mp hi
    simp [h29, hI, Finset.sum_range_succ, watson_func.ti]
    ring
  · simp
    ring

end watson

/-! ## Properties of the snippets -/

section claims

variable [Field K]

/-- C2: for every `x` and every non-empty coefficient vector `theta` of
length `n`, the size-bounded `grad_poly` differentiates the polynomial
`sum_{k<n} theta_k * x^k` (the value `fx` that is differentiated) and returns
the vector of length `n` whose `k`-th entry is `x^k`, whatever the values in
`theta` are. -/
theorem C2_grad_poly_is_powers (x : K) (theta : List K) (h : theta ≠ []) :
    gradient (chunk12.polynomial x) theta
        = some (∑ k in Finset.range theta.length, theta.getD k 0 * x ^ k,
                (List.range theta.length).map (fun k => x ^ k))
      ∧ chunk12.grad_poly x theta = some ((List.range theta.length).map (fun k => x ^ k))
      ∧ ((List.range theta.length).map (fun k => x ^ k)).length = theta.length
      ∧ ((List.range theta.length).map (fun k => x ^ k))[0]? = some 1 := by
  have hpos : 0 < theta.length := List.length_pos.mpr h
  obtain ⟨y, hy, hval, hgrad⟩ :=
    gradient_polynomial_loop x theta (theta.length - 1) (by omega)
  have hlen : theta.length - 1 + 1 = theta.length := by omega
  have hg : adjoints theta.length (y.grad (fun _ => 0))
      = (List.range theta.length).map (fun k => x ^ k) := by
    rw [hgrad]
    apply List.map_congr_left
    intro i hi
    have : i ≤ theta.length - 1 := by
      have := List.mem_range.mp hi
      omega
    simp [this]
  have hG : gradient (chunk12.polynomial x) theta
      = some (∑ k in Finset.range theta.length, theta.getD k 0 * x ^ k,
              (List.range theta.length).map (fun k => x ^ k)) := by
    unfold gradient chunk12.polynomial
    rw [independent_length]
    simp only [Option.bind_eq_bind] at hy
    simp only [Option.bind_eq_bind, hy, Option.some_bind, hval, hlen, hg]
    rfl
  refine ⟨hG, ?_, by simp, ?_⟩
  · unfold chunk12.grad_poly
    rw [hG]
    rfl
  · rw [List.getElem?_map, List.getElem?_range hpos]
    simp

/-- The gradient of the size-bounded polynomial at `x = 2`, `theta = (5, 7, 11)`
over the rationals. -/
theorem C2_grad_poly_is_powers_witness :
    chunk12.grad_poly (2 : ℚ) [5, 7, 11] = some [1, 2, 4] := by
  have h := (C2_grad_poly_is_powers (2 : ℚ) [5, 7, 11] (by simp)).2.1
  rw [h]
  norm_num [List.range_succ]

/-- C6: the fixed-degree `grad_poly` makes no length check; the polynomial
reads `theta[0]` to `theta[9]`, so it has a result (every read in range)
exactly when `theta` has at least 10 entries, and for every `theta` with
fewer than 10 entries a read is out of range and there is no result.  With at
least 10 entries the gradient is `x^k` at `k <= 9` and zero at the entries
that are not read. -/
theorem C6_fixed_grad_poly_reads_ten (x : K) (theta : List K) :
    ((chunk11.grad_poly x theta).isSome ↔ 10 ≤ theta.length)
      ∧ (chunk11.grad_poly x theta = none ↔ theta.length < 10)
      ∧ ((chunk11.polynomial x (independent theta)).isSome ↔ 10 ≤ theta.length)
      ∧ chunk11.grad_poly x theta
          = if 10 ≤ theta.length then
              some ((List.range theta.length).map (fun k => if k ≤ 9 then x ^ k else 0))
            else none := by
  have h1 : (chunk11.polynomial x (independent theta)).isSome ↔ 10 ≤ theta.length := by
    rw [polynomial_fixed_isSome, independent_length]
  have h2 : (chunk11.grad_poly x theta).isSome ↔ 10 ≤ theta.length := by
    rw [← h1]
    unfold chunk11.grad_poly gradient
    cases chunk11.polynomial x (independent theta) <;> simp
  have h3 : chunk11.grad_poly x theta = none ↔ theta.length < 10 := by
    rw [← Option.not_isSome_iff_eq_none, h2]
    omega
  refine ⟨h2, h3, h1, ?_⟩
  by_cases h10 : 10 ≤ theta.length
  · obtain ⟨y, hy, _, hgrad⟩ := gradient_polynomial_loop x theta 9 (by omega)
    rw [if_pos h10]
    unfold chunk11.grad_poly gradient chunk11.polynomial
    simp only [Option.bind_eq_bind] at hy
    simp only [Option.bind_eq_bind, show (10 - 1 : Nat) = 9 from rfl, hy, Option.some_bind,
      hgrad]
    rfl
  · rw [if_neg h10]
    exact h3.mpr (by omega)

/-- C8: for every `x` and every coefficient vector `theta` of length exactly
10, the fixed-degree polynomial (loop bound `k < 10`) and the size-bounded
polynomial (loop bound `k < theta.size()`) compute the same result, whose
value is `sum_{k<10} theta_k * x^k`, and the two `grad_poly` return the same
gradient. -/
theorem C8_fixed_and_sized_agree (x : K) (theta : List K) (h : theta.length = 10) :
    chunk11.polynomial x (independent theta) = chunk12.polynomial x (independent theta)
      ∧ (chunk12.polynomial x (independent theta)).map var.val
          = some (∑ k in Finset.range 10, theta.getD k 0 * x ^ k)
      ∧ gradient (chunk11.polynomial x) theta = gradient (chunk12.polynomial x) theta
      ∧ chunk11.grad_poly x theta = chunk12.grad_poly x theta := by
  have he : chunk11.polynomial x (independent theta)
      = chunk12.polynomial x (independent theta) := by
    unfold chunk11.polynomial chunk12.polynomial
    rw [independent_length, h]
  obtain ⟨y, hy, hval, _⟩ := gradient_polynomial_loop x theta 9 (by omega)
  refine ⟨he, ?_, ?_, ?_⟩
  · rw [← he]
    unfold chunk11.polynomial
    rw [show (10 - 1 : Nat) = 9 from rfl, hy, Option.map_some', hval]
  · unfold gradient
    rw [he]
  · unfold chunk11.grad_poly chunk12.grad_poly gradient
    rw [he]

/-- The two polynomials at `x = 2` and the coefficients `1, ..., 10` over the
rationals. -/
theorem C8_fixed_and_sized_agree_witness :
    chunk11.grad_poly (2 : ℚ) [1, 2, 3, 4, 5, 6, 7, 8, 9, 10]
      = chunk12.grad_poly (2 : ℚ) [1, 2, 3, 4, 5, 6, 7, 8, 9, 10] :=
  (C8_fixed_and_sized_agree (2 : ℚ) [1, 2, 3, 4, 5, 6, 7, 8, 9, 10] rfl).2.2.2

/-- C3: for every input vector `x` of length `m` and every parameter vector
`theta = (A, lam, b)`, the response of `fjac_exp` is the vector of length `m`
whose `i`-th entry is `A * exp(-lam * x_i) + b`. -/
theorem C3_fjac_exp_response (L : StanMath K) (x : List K) (A lam b : K) :
    (fjac_exp L x [A, lam, b]).map NumericVector.data
        = some (x.map (fun xi => A * L.exp (-lam * xi) + b))
      ∧ (x.map (fun xi => A * L.exp (-lam * xi) + b)).length = x.length := by
  refine ⟨?_, by simp⟩
  have hi : independent [A, lam, b] = [var.input 0 A, var.input 1 lam, var.input 2 b] := rfl
  simp [fjac_exp, jacobian, hi, colnames]

/-- C1: for every parameter vector `theta` of length 6, the default-constructed
`watson_func` (`n = 31`, `p = 6`) applied to `theta` returns the 31 Watson
residuals: with `t_i = (i + 1) / 29`, entry `i < 29` is
`sum_{j=1..5} j*theta_j*t_i^(j-1) - (sum_{j=0..5} theta_j*t_i^j)^2 - 1`, entry
29 is `theta_0` and entry 30 is `theta_1 - theta_0^2 - 1`; this is the
response of `fjac_watson`, and at `theta = 0` it is 29 entries `-1` followed
by `0` and `-1`. -/
theorem C1_watson_residuals (theta : List K) (h : theta.length = 6) :
    ∃ wf : watson_func K, watson_func.watson_func 31 6 = some wf
      ∧ (wf.call (independent theta)).map (List.map var.val)
          = some (watson_residuals_spec theta)
      ∧ (watson_residuals_spec theta).length = 31
      ∧ (∀ nms : List String, nms.length = 6 →
          (fjac_watson theta nms).map NumericVector.data = some (watson_residuals_spec theta))
      ∧ watson_residuals_spec ([0, 0, 0, 0, 0, 0] : List K)
          = List.replicate 29 (-1) ++ [0, -1] := by
  have hw : (watson_func.watson_func 31 6 : Option (watson_func K))
      = some ⟨31, watson_func.tj1_filled 29 6 29, watson_func.tj2_filled 29 6 29⟩ :=
    watson_func_eq 31 6 (by norm_num)
  have hc : ((⟨31, watson_func.tj1_filled 29 6 29, watson_func.tj2_filled 29 6 29⟩ :
      watson_func K).call (independent theta)).map (List.map var.val)
      = some (watson_residuals_spec theta) := by
    match theta, h with
    | [a0, a1, a2, a3, a4, a5], _ => exact watson_call_values a0 a1 a2 a3 a4 a5
  refine ⟨_, hw, hc, by simp [watson_residuals_spec], ?_, ?_⟩
  · intro nms hn
    obtain ⟨fx_var, hfx, hval⟩ := Option.map_eq_some'.mp hc
    unfold fjac_watson
    rw [hw]
    simp only [Option.bind_eq_bind, Option.some_bind, jacobian, hfx, Option.pure_def, colnames,
      hn, h, if_true, Option.map_some', hval]
  · have hI : (Finset.Icc 1 5 : Finset ℕ) = {1, 2, 3, 4, 5} := rfl
    unfold watson_residuals_spec
    congr 1
    · rw [List.eq_replicate_iff]
      refine ⟨by simp, ?_⟩
      intro b hb
      obtain ⟨i, _, rfl⟩ := List.mem_map.mp hb
      simp [hI, Finset.sum_range_succ]
    · simp

/-- The Watson residuals at `theta = 0` over the rationals. -/
theorem C1_watson_residuals_witness :
    (fjac_watson ([0, 0, 0, 0, 0, 0] : List ℚ) ["a", "b", "c", "d", "e", "f"]).map
        NumericVector.data = some (List.replicate 29 (-1) ++ [0, -1]) := by
  obtain ⟨_, _, _, _, h1, h2⟩ := @C1_watson_residuals ℚ _ [0, 0, 0, 0, 0, 0] rfl
  rw [h1 ["a", "b", "c", "d", "e", "f"] rfl, h2]

/-- C9: for every `n >= 2` and `p >= 1` the constructor of `watson_func`
fills two tables of `n - 2` rows and `p` columns such that, with
`t_i = (i + 1) / 29` for every row `i < n - 2` (the divisor is 29 whatever `n`
is), `tj1(i, j) = t_i^j` for every column `j < p`, `tj2(i, 0) = 0` and
`tj2(i, j) = j * t_i^(j-1)` for `1 <= j < p`; that is, `tj2(i, j)` is the
derivative of the monomial `t^j` at `t_i`. -/
theorem C9_watson_tables (n p : Nat) (hn : 2 ≤ n) (hp : 1 ≤ p) :
    ∃ w : watson_func K, watson_func.watson_func n p = some w
      ∧ w.tj1.rows + 2 = n ∧ w.tj1.cols = p ∧ w.tj2.rows + 2 = n ∧ w.tj2.cols = p
      ∧ ∀ i, i < n - 2 →
          (∀ j, j < p → w.tj1.coeff i j = (((i + 1 : Nat) : K) / 29) ^ j)
          ∧ w.tj2.coeff i 0 = 0
          ∧ (∀ j, 1 ≤ j → j < p →
              w.tj2.coeff i j = (j : K) * (((i + 1 : Nat) : K) / 29) ^ (j - 1))
          ∧ (∀ j, j < p →
              w.tj2.coeff i j = Polynomial.eval (((i + 1 : Nat) : K) / 29)
                (Polynomial.derivative (Polynomial.X ^ j))) := by
  refine ⟨_, watson_func_eq n p hp, ?_, rfl, ?_, rfl, ?_⟩
  · show n - 2 + 2 = n
    omega
  · show n - 2 + 2 = n
    omega
  · intro i hi
    refine ⟨?_, ?_, ?_, ?_⟩
    · intro j hj
      show (if i < n - 2 ∧ j < p then watson_func.ti i ^ j else 0) = _
      rw [if_pos ⟨hi, hj⟩]
      rfl
    · show (if i < n - 2 ∧ 0 < p then (if 0 = 0 then (0 : K) else _) else 0) = 0
      simp
    · intro j h1 hj
      show (if i < n - 2 ∧ j < p then
          (if j = 0 then 0 else (j : K) * watson_func.ti i ^ (j - 1)) else 0) = _
      rw [if_pos ⟨hi, hj⟩, if_neg (by omega)]
      rfl
    · intro j hj
      show (if i < n - 2 ∧ j < p then
          (if j = 0 then 0 else (j : K) * watson_func.ti i ^ (j - 1)) else 0) = _
      rw [if_pos ⟨hi, hj⟩]
      by_cases hj0 : j = 0
      · subst hj0
        simp
      · rw [if_neg hj0]
        simp [Polynomial.derivative_X_pow, watson_func.ti]

/-- The tables for `n = 4`, `p = 3` over the rationals, at row 1 and column 2. -/
theorem C9_watson_tables_witness :
    ∃ w : watson_func ℚ, watson_func.watson_func 4 3 = some w
      ∧ w.tj1.rows = 2 ∧ w.tj1.cols = 3
      ∧ w.tj1.coeff 1 2 = 4 / 841 ∧ w.tj2.coeff 1 0 = 0 ∧ w.tj2.coeff 1 2 = 4 / 29 := by
  obtain ⟨w, hw, h1, h2, _, _, h⟩ := @C9_watson_tables ℚ _ 4 3 (by norm_num) (by norm_num)
  obtain ⟨ha, hb, hc, _⟩ := h 1 (by norm_num)
  refine ⟨w, hw, by omega, h2, ?_, hb, ?_⟩
  · rw [ha 2 (by norm_num)]
    norm_num
  · rw [hc 2 (by norm_num) (by norm_num)]
    norm_num

end claims

section kinetic

/-- The clamped value is strictly between 0 and 1 and `-log(1 - y1)` is
positive. -/
theorem y1_bounds (y0 : ℝ) :
    0 < kinetic_func.y1 y0 ∧ kinetic_func.y1 y0 < 1
      ∧ 0 < -Real.log (1 - kinetic_func.y1 y0) := by
  have hlo : (1e-10 : ℝ) ≤ kinetic_func.y1 y0 := by
    unfold kinetic_func.y1
    exact le_min (le_max_right _ _) (by norm_num)
  have hhi : kinetic_func.y1 y0 ≤ 1 - 1e-10 := by
    unfold kinetic_func.y1
    exact le_trans (min_le_right _ _) (by norm_num)
  have hpos : 0 < kinetic_func.y1 y0 := lt_of_lt_of_le (by norm_num) hlo
  have hlt : kinetic_func.y1 y0 < 1 := lt_of_le_of_lt hhi (by norm_num)
  have := Real.log_neg (by linarith : 0 < 1 - kinetic_func.y1 y0) (by linarith)
  exact ⟨hpos, hlt, by linarith⟩

/-- The right-hand side on a state with its entry `y(0)` and four parameters. -/
theorem kinetic_func_cons {K : Type} [LinearOrderedField K] (L : StanMath K) (t y0 : K)
    (ys : List K) (logk n m p : K) :
    kinetic_func L t (y0 :: ys) [logk, n, m, p]
      = some [L.exp (logk + n * log1m L (kinetic_func.y1 y0)
          + multiply_log L m (kinetic_func.y1 y0)
          + multiply_log L p (-log1m L (kinetic_func.y1 y0)))] := by
  unfold kinetic_func
  simp only [List.getElem?_cons_zero, List.getElem?_cons_succ, Option.bind_eq_bind,
    Option.some_bind, Option.pure_def]

/-- The right-hand side written with the logarithm of the library alone:
`multiply_log(a, b)` is `a * log(b)` in every case, so the logarithm is taken
at `1 - y1`, at `y1` and at `-log(1 - y1)`, and nowhere else. -/
theorem kinetic_func_logs {K : Type} [LinearOrderedField K] (L : StanMath K) (t y0 : K)
    (ys : List K) (logk n m p : K) :
    kinetic_func L t (y0 :: ys) [logk, n, m, p]
      = some [L.exp (logk + n * L.log (1 - kinetic_func.y1 y0)
          + m * L.log (kinetic_func.y1 y0)
          + p * L.log (-L.log (1 - kinetic_func.y1 y0)))] := by
  have hml : ∀ a b : K, multiply_log L a b = a * L.log b := by
    intro a b
    unfold multiply_log
    by_cases h : a = 0 ∧ b = 0
    · rw [if_pos h, h.1, zero_mul]
    · rw [if_neg h]
  rw [kinetic_func_cons, hml, hml]
  rfl

/-- C4: `kinetic_func` constrains the state to the unit interval.  For every
real `y(0)` the clamped value `y1` lies in `[1e-10, 1 - 1e-10]`, equals `y(0)`
exactly when `y(0)` already lies there and is strictly between 0 and 1.  The
right-hand side that `kinetic_func` returns takes the logarithm of the
library, whichever function that is, at the three arguments `1 - y1`, `y1`
and `-log(1 - y1)` only; with the real logarithm these three arguments are
strictly positive, so the result is the same for every library logarithm
that agrees with the real one on the positive reals. -/
theorem C4_state_constrained_to_unit_interval (t y0 : ℝ) (ys : List ℝ)
    (logk n m p : ℝ) :
    1e-10 ≤ kinetic_func.y1 y0 ∧ kinetic_func.y1 y0 ≤ 1 - 1e-10
      ∧ (kinetic_func.y1 y0 = y0 ↔ (1e-10 ≤ y0 ∧ y0 ≤ 1 - 1e-10))
      ∧ 0 < kinetic_func.y1 y0 ∧ kinetic_func.y1 y0 < 1
      ∧ 0 < 1 - kinetic_func.y1 y0
      ∧ 0 < -Real.log (1 - kinetic_func.y1 y0)
      ∧ 0 < -log1m ⟨Real.exp, Real.log⟩ (kinetic_func.y1 y0)
      ∧ (∀ L : StanMath ℝ, kinetic_func L t (y0 :: ys) [logk, n, m, p]
          = some [L.exp (logk + n * L.log (1 - kinetic_func.y1 y0)
              + m * L.log (kinetic_func.y1 y0)
              + p * L.log (-L.log (1 - kinetic_func.y1 y0)))])
      ∧ (∀ L : StanMath ℝ, L.exp = Real.exp → (∀ x : ℝ, 0 < x → L.log x = Real.log x) →
          kinetic_func L t (y0 :: ys) [logk, n, m, p]
            = kinetic_func ⟨Real.exp, Real.log⟩ t (y0 :: ys) [logk, n, m, p]) := by
  have hlo : (1e-10 : ℝ) ≤ kinetic_func.y1 y0 := by
    unfold kinetic_func.y1
    exact le_min (le_max_right _ _) (by norm_num)
  have hhi : kinetic_func.y1 y0 ≤ 1 - 1e-10 := by
    unfold kinetic_func.y1
    exact le_trans (min_le_right _ _) (by norm_num)
  obtain ⟨hpos, hlt, hlog⟩ := y1_bounds y0
  have h1 : 0 < 1 - kinetic_func.y1 y0 := by linarith
  refine ⟨hlo, hhi, ?_, hpos, hlt, h1, hlog, hlog, ?_, ?_⟩
  · constructor
    · intro h
      rw [← h]
      exact ⟨hlo, hhi⟩
    · rintro ⟨h1, h2⟩
      unfold kinetic_func.y1
      rw [max_eq_left h1, min_eq_left (le_trans h2 (by norm_num))]
  · intro L
    exact kinetic_func_logs L t y0 ys logk n m p
  · intro L hexp hL
    rw [kinetic_func_logs, kinetic_func_logs, hexp, hL _ h1, hL _ hpos, hL _ hlog]

/-- The right-hand side at `y(0) = 1/2` for a library logarithm that is 7
outside the positive reals. -/
theorem C4_state_constrained_to_unit_interval_witness :
    kinetic_func ⟨Real.exp, fun x => if 0 < x then Real.log x else 7⟩ 0 [1 / 2] [1, 2, 3, 4]
      = kinetic_func ⟨Real.exp, Real.log⟩ 0 [1 / 2] [1, 2, 3, 4] :=
  (C4_state_constrained_to_unit_interval 0 (1 / 2) [] 1 2 3 4).2.2.2.2.2.2.2.2.2
    ⟨Real.exp, fun x => if 0 < x then Real.log x else 7⟩ rfl
    (fun _ hx => if_pos hx)

/-- C5: for every time `t`, every state `y` with its entry `y(0)` and every
`theta = (logk, n, m, p)`, `kinetic_func` returns the one-entry vector
`exp(logk + n*log(1 - y1) + m*log(y1) + p*log(-log(1 - y1)))`, which is the
rate law `exp(logk) * (1 - y1)^n * y1^m * (-log(1 - y1))^p`, where `y1` is
`y(0)` clamped to `[1e-10, 1 - 1e-10]`; the result does not depend on `t`. -/
theorem C5_kinetic_rate_law (t y0 : ℝ) (ys : List ℝ) (logk n m p : ℝ) :
    kinetic_func ⟨Real.exp, Real.log⟩ t (y0 :: ys) [logk, n, m, p]
        = some [Real.exp (logk + n * Real.log (1 - kinetic_func.y1 y0)
            + m * Real.log (kinetic_func.y1 y0)
            + p * Real.log (-Real.log (1 - kinetic_func.y1 y0)))]
      ∧ Real.exp (logk + n * Real.log (1 - kinetic_func.y1 y0)
            + m * Real.log (kinetic_func.y1 y0)
            + p * Real.log (-Real.log (1 - kinetic_func.y1 y0)))
          = Real.exp logk * (1 - kinetic_func.y1 y0) ^ n * (kinetic_func.y1 y0) ^ m
              * (-Real.log (1 - kinetic_func.y1 y0)) ^ p
      ∧ kinetic_func.y1 y0 = min (max y0 1e-10) (1 - 1e-10)
      ∧ ∀ t' : ℝ, kinetic_func ⟨Real.exp, Real.log⟩ t' (y0 :: ys) [logk, n, m, p]
          = kinetic_func ⟨Real.exp, Real.log⟩ t (y0 :: ys) [logk, n, m, p] := by
  obtain ⟨hpos, hlt, hlog⟩ := y1_bounds y0
  have h1 : 0 < 1 - kinetic_func.y1 y0 := by linarith
  refine ⟨?_, ?_, ?_, fun t' => rfl⟩
  · have hy : ¬ (m = 0 ∧ kinetic_func.y1 y0 = 0) := fun hc => (ne_of_gt hpos) hc.2
    have hl : ¬ (p = 0 ∧ -Real.log (1 - kinetic_func.y1 y0) = 0) :=
      fun hc => (ne_of_gt hlog) hc.2
    have hl2 : ¬ (p = 0 ∧ -log1m ⟨Real.exp, Real.log⟩ (kinetic_func.y1 y0) = 0) := hl
    rw [kinetic_func_cons]
    unfold multiply_log
    rw [if_neg hy, if_neg hl2]
    rfl
  · rw [Real.rpow_def_of_pos h1, Real.rpow_def_of_pos hpos, Real.rpow_def_of_pos hlog,
      ← Real.exp_add, ← Real.exp_add, ← Real.exp_add]
    congr 1
    ring
  · unfold kinetic_func.y1
    norm_num

/-- One round of the loop of `fjac_kinetic` at an output that is there. -/
theorem fjac_kinetic_step_eq {K : Type} [Field K] (ys : List (List (var K)))
    (adj : Nat → K) (fx : List K) (jac : MatrixXd K) (k : Nat) (y : var K)
    (hy : ode_output ys k = some y) (hk : k < fx.length) (hc : k < jac.cols)
    (hr : jac.rows = 4) :
    fjac_kinetic.step ys (adj, fx, jac) k
      = some (y.grad (fun _ => 0), fx.set k y.val,
          ⟨jac.rows, jac.cols, fun a b =>
            if b = k then (adjoints 4 (y.grad (fun _ => 0))).getD a 0 else jac.coeff a b⟩) := by
  unfold ode_output at hy
  unfold fjac_kinetic.step
  cases h1 : ys[k]? with
  | none => simp [h1] at hy
  | some ysn =>
    rw [h1] at hy
    simp only [Option.bind_eq_bind, Option.some_bind] at hy
    have hl : (adjoints 4 (y.grad (fun _ => (0 : K)))).length = jac.rows := by
      rw [hr]
      simp [adjoints]
    have hz : set_zero_all_adjoints adj = fun _ => (0 : K) := rfl
    simp only [Option.bind_eq_bind, Option.some_bind, hy, hz, if_pos hk,
      MatrixXd.setCol, if_pos (And.intro hc hl), Option.pure_def]

/-- The loop of `fjac_kinetic` after `r` rounds: entry `i < r` of `fx` is the
value of output `i`, and column `i < r` of `jac_fx` holds the adjoints of the
sweep from zero started at output `i`. -/
theorem fjac_kinetic_loop {K : Type} [Field K] (ys : List (List (var K))) (out : Nat → var K)
    (T r : Nat) (hr : r ≤ T) (hout : ∀ i, i < T → ode_output ys i = some (out i)) :
    ∃ adj, (List.range r).foldlM (fjac_kinetic.step ys)
        ((fun _ => 0), List.replicate T (0 : K), (MatrixXd.resize 4 T : MatrixXd K))
      = some (adj, (List.range T).map (fun i => if i < r then (out i).val else 0),
          ⟨4, T, fun a b =>
            if b < r then (adjoints 4 ((out b).grad (fun _ => 0))).getD a 0 else 0⟩) := by
  induction r with
  | zero =>
    refine ⟨fun _ => 0, ?_⟩
    have e : ∀ b : Nat, ¬ (b < 0) := by omega
    simp only [List.range_zero, List.foldlM_nil, Option.pure_def, if_neg (e _),
      List.map_const', List.length_range, MatrixXd.resize]
  | succ r ih =>
    obtain ⟨adj, hadj⟩ := ih (by omega)
    refine ⟨(out r).grad (fun _ => 0), ?_⟩
    rw [List.range_succ, List.foldlM_append, hadj]
    simp only [Option.bind_eq_bind, Option.some_bind, List.foldlM_cons, List.foldlM_nil]
    rw [fjac_kinetic_step_eq ys _ _ _ r (out r) (hout r (by omega)) (by simp; omega)
      (by show r < T; omega) rfl]
    simp only [Option.some_bind, Option.pure_def, Option.some.injEq, Prod.mk.injEq,
      MatrixXd.mk.injEq, true_and]
    constructor
    · apply List.ext_getElem?
      intro i
      rw [List.getElem?_set]
      by_cases hi : i < T
      · by_cases hir : r = i
        · subst hir
          simp [hi]
        · have h1 : (i < r + 1) ↔ (i < r) := by omega
          simp [hir, List.getElem?_range hi, h1]
      · have h2 : ¬ (r = i) := by omega
        have h3 : (List.range T)[i]? = none := List.getElem?_eq_none (by simp; omega)
        simp [h2, h3]
    · funext a b
      by_cases hb : b = r
      · subst hb
        simp
      · by_cases hb2 : b < r
        · have : b < r + 1 := by omega
          rw [if_neg hb, if_pos hb2, if_pos this]
        · have : ¬ (b < r + 1) := by omega
          rw [if_neg hb, if_neg hb2, if_neg this]

/-- C7: for every vector `ts` of `T` output times for which the integrator
gives one non-empty state for each time, `fjac_kinetic` returns a response of
length `T` (entry `i` the value of `ys[i](0)`) and a gradient matrix of `T`
rows and 4 columns named `(logk, n, m, p)` whose row `i` holds the adjoints of
`theta` after the sweep from zero started at `ys[i](0)` alone; a round of the
loop does not depend on the adjoints left by earlier rounds. -/
theorem C7_fjac_kinetic_rows {K : Type} [LinearOrderedField K] (L : StanMath K)
    (ode_rk45 : OdeSolver K) (logk n m p : K) (ts : List K) (ys : List (List (var K)))
    (hode : ode_rk45 (kinetic_func L) [0.001] 0 ts
      [var.input 0 logk, var.input 1 n, var.input 2 m, var.input 3 p] = some ys)
    (hlen : ys.length = ts.length) (hne : ∀ s ∈ ys, s ≠ []) :
    ∃ r, fjac_kinetic L ode_rk45 logk n m p ts = some r
      ∧ r.data.length = ts.length
      ∧ r.gradient.data.rows = ts.length ∧ r.gradient.data.cols = 4
      ∧ r.gradient.colnames = ["logk", "n", "m", "p"]
      ∧ (∀ i y, ode_output ys i = some y →
          r.data[i]? = some y.val
            ∧ ∀ j, j < 4 → r.gradient.data.coeff i j = y.grad (fun _ => 0) j)
      ∧ (∀ (adj adj' : Nat → K) (fx : List K) (jac : MatrixXd K) (k : Nat),
          (fjac_kinetic.step ys (adj, fx, jac) k).map Prod.snd
            = (fjac_kinetic.step ys (adj', fx, jac) k).map Prod.snd) := by
  have hout : ∀ i, i < ts.length →
      ode_output ys i = some ((ys.getD i []).getD 0 (var.const 0)) := by
    intro i hi
    have hi2 : i < ys.length := by omega
    have hmem : ys[i] ≠ [] := hne _ (List.getElem_mem hi2)
    have hpos : 0 < (ys[i]).length := List.length_pos.mpr hmem
    unfold ode_output
    simp [List.getElem?_eq_getElem hi2, List.getElem?_eq_getElem hpos]
  obtain ⟨adj, hloop⟩ := fjac_kinetic_loop ys (fun i => (ys.getD i []).getD 0 (var.const 0))
    ts.length ts.length (Nat.le_refl _) hout
  have hres : fjac_kinetic L ode_rk45 logk n m p ts
      = some ⟨(List.range ts.length).map (fun i =>
            if i < ts.length then ((ys.getD i []).getD 0 (var.const 0)).val else 0),
          ⟨⟨ts.length, 4, fun a b =>
            if a < ts.length then
              (adjoints 4 (((ys.getD a []).getD 0 (var.const 0)).grad (fun _ => 0))).getD b 0
            else 0⟩, ["logk", "n", "m", "p"]⟩⟩ := by
    unfold fjac_kinetic
    simp only [Option.bind_eq_bind, hode, Option.some_bind, hloop, colnames,
      MatrixXd.transposeInPlace, List.length_cons, List.length_nil, Nat.reduceAdd, if_true,
      Option.pure_def]
  refine ⟨_, hres, ?_, ?_, ?_, ?_, ?_, ?_⟩
  · simp
  · rfl
  · rfl
  · rfl
  · intro i y hy
    have hi : i < ts.length := by
      by_contra hc
      unfold ode_output at hy
      rw [List.getElem?_eq_none (by omega)] at hy
      simp at hy
    have hy2 : (ys.getD i []).getD 0 (var.const 0) = y := by
      have := hout i hi
      rw [hy] at this
      exact (Option.some.inj this).symm
    constructor
    · simp only [List.getElem?_map, List.getElem?_range hi, Option.map_some', if_pos hi, hy2]
    · intro j hj
      show (if i < ts.length then
        (adjoints 4 (((ys.getD i []).getD 0 (var.const 0)).grad (fun _ => 0))).getD j 0
          else 0) = _
      rw [if_pos hi, hy2]
      simp [adjoints, List.getElem?_range hj]
  · intro adj adj' fx jac k
    rfl

/-- The rows of `fjac_kinetic` over the rationals, for an integrator whose output at time `t` is
`n * t`, at the output times 5 and 6. -/
theorem C7_fjac_kinetic_rows_witness :
    ∃ r, fjac_kinetic (⟨fun x => x, fun x => x⟩ : StanMath ℚ)
          (fun _ _ _ ts theta => some (ts.map (fun t => [(theta.getD 1 (var.const 0)).mul_d t])))
          1 2 3 4 [5, 6] = some r
      ∧ r.data = [10, 12]
      ∧ r.gradient.data.rows = 2 ∧ r.gradient.data.cols = 4
      ∧ (List.range 4).map (r.gradient.data.coeff 1) = [0, 6, 0, 0] := by
  obtain ⟨r, hr, h1, h2, h3, _, h5, _⟩ := C7_fjac_kinetic_rows
    (⟨fun x => x, fun x => x⟩ : StanMath ℚ)
    (fun _ _ _ ts theta => some (ts.map (fun t => [(theta.getD 1 (var.const 0)).mul_d t])))
    1 2 3 4 [5, 6] [[(var.input 1 2).mul_d 5], [(var.input 1 2).mul_d 6]] rfl rfl
    (by simp)
  have e0 := (h5 0 ((var.input 1 2).mul_d 5) rfl).1
  obtain ⟨e1, e2⟩ := h5 1 ((var.input 1 2).mul_d 6) rfl
  refine ⟨r, hr, ?_, h2, h3, ?_⟩
  · apply List.ext_getElem?
    intro i
    match i with
    | 0 =>
      rw [e0]
      norm_num
    | 1 =>
      rw [e1]
      norm_num
    | i + 2 =>
      rw [List.getElem?_eq_none (by rw [h1]; simp), List.getElem?_eq_none (by simp)]
  · have hr4 : List.range 4 = [0, 1, 2, 3] := rfl
    simp only [hr4, List.map_cons, List.map_nil, e2 0 (by norm_num), e2 1 (by norm_num),
      e2 2 (by norm_num), e2 3 (by norm_num)]
    simp [var.grad, chain_mul_d, chain_input]

end kinetic

end StanAD
